import Mathlib

/-!
Verification of the dependency-graph core of the AHS-2026 backend.

The definitions below are a shallow embedding of the Python sources under
`backend/app`:

* `app/models/graph.py`      → the shared data model (`NodeType`, `EdgeType`,
  `CodeNode`, `GraphEdge`, `CodeGraph`, `LearningNode`, `LearningPath`);
* `app/services/impact.py`   → namespace `ImpactAnalysisService`;
* `app/agents/change_impact.py` → namespace `ChangeImpactAgent`;
* `app/agents/code_intelligence.py` → namespace `CodeIntelligenceAgent`;
* `app/services/intelligence.py` → namespace `CodeIntelligenceService`;
* `app/agents/code_intelligence.py` risk rule → `_calculate_risk`;
* `app/services/learning_graph.py` → namespace `LearningGraphService`.

The `networkx` library calls used by the sources (`nx.DiGraph` node/edge
bookkeeping, `nx.ancestors`, degree queries) are modelled in namespace `NX`
by their documented semantics: `nx.ancestors G t` returns the set of all
nodes with a directed path to `t` (excluding `t` itself); here that set is
computed by an executable saturation loop proved equivalent to the
declarative reachability relation `NX.Reaches`.

Machine floats (`GraphEdge.weight`, unused by every modelled algorithm) and
the AI-client calls (embeddings / prompt text, orchestration-only) are not
modelled; Python `Dict[str, Any]` metadata is modelled by a record holding
exactly the keys the modelled code reads or writes.
-/

/-- `app/models/graph.py` `NodeType` (a `str` enum; `MODULE = "module"` etc.). -/
inductive NodeType where
  | MODULE
  | CLASS
  | FUNCTION
  | CONCEPT
deriving DecidableEq, Repr

/-- `app/models/graph.py` `EdgeType` (a `str` enum). -/
inductive EdgeType where
  | IMPORTS
  | CALLS
  | DEFINES
  | DEPENDS_ON
deriving DecidableEq, Repr

/-- The metadata dictionary `Dict[str, Any]` of a `CodeNode`, modelled by the
keys the embedded code actually reads or writes: `"loc"` (intelligence
service), `"risk"` placeholder and `"risk_score"`/`"metrics"` (code
intelligence agent).  An absent key is `none`. -/
structure Metadata where
  loc : Option Nat := none
  risk : Option String := none
  risk_score : Option String := none
  metrics : Option (Nat × Nat) := none
deriving DecidableEq, Repr

/-- `app/models/graph.py` `CodeNode`. -/
structure CodeNode where
  id : String
  type : NodeType
  name : String
  path : String
  metadata : Metadata := {}
deriving DecidableEq, Repr

/-- `app/models/graph.py` `GraphEdge` (the `weight: float = 1.0` field is
reserved and read by no modelled algorithm, so it is left out of the model). -/
structure GraphEdge where
  source : String
  target : String
  type : EdgeType
deriving DecidableEq, Repr

/-- `app/models/graph.py` `CodeGraph`. -/
structure CodeGraph where
  nodes : List CodeNode
  edges : List GraphEdge
deriving DecidableEq, Repr

/-- `app/models/graph.py` `LearningNode`. -/
structure LearningNode where
  id : String
  concept_name : String
  difficulty : Nat
  cognitive_load : Nat
  description : String
  related_code_nodes : List String
deriving DecidableEq, Repr

/-- `app/models/graph.py` `LearningPath`. -/
structure LearningPath where
  nodes : List LearningNode
  edges : List GraphEdge
  entry_points : List String
deriving DecidableEq, Repr

/-! ### Python substring containment (`sub in s`) -/

/-- `q` is a leading segment of `l` (character-list level). -/
def leadsList (q l : List Char) : Bool :=
  match q, l with
  | [], _ => true
  | _ :: _, [] => false
  | a :: as, b :: bs => decide (a = b) && leadsList as bs

/-- `q` occurs as a contiguous segment of `l`. -/
def occursList (q : List Char) : List Char → Bool
  | [] => leadsList q []
  | c :: rest => leadsList q (c :: rest) || occursList q rest

/-- Python's `sub in s` substring test. -/
def isSubstrOf (sub s : String) : Bool :=
  occursList sub.data s.data

theorem leadsList_self (l : List Char) : leadsList l l = true := by
  induction l with
  | nil => rfl
  | cons c cs ih => simp [leadsList, ih]

theorem isSubstrOf_self (s : String) : isSubstrOf s s = true := by
  unfold isSubstrOf occursList
  cases h : s.data with
  | nil => rfl
  | cons c cs => rw [← h]; simp [h, leadsList_self]

/-! ### `NX`: the networkx fragment used by the sources -/

namespace NX

/-- `G.add_node x`: append `x` to the node list unless already present
(networkx keeps insertion order and ignores re-insertion). -/
def addNode (l : List String) (x : String) : List String :=
  if x ∈ l then l else l ++ [x]

/-- The node list of a `DiGraph` after `add_node` for every id in `nodeIds`
followed by `add_edge u v` for every pair in `edges` (`add_edge` inserts
missing endpoints). -/
def nodeList (nodeIds : List String) (edges : List (String × String)) : List String :=
  edges.foldl (fun l e => addNode (addNode l e.1) e.2) (nodeIds.foldl addNode [])

/-- `DiGraph` stores at most one edge per ordered pair: deduplicate the
edge-pair list keeping first occurrences. -/
def dedupPairs (l : List (String × String)) : List (String × String) :=
  l.foldl (fun acc e => if e ∈ acc then acc else acc ++ [e]) []

/-- `G.in_degree v` over a deduplicated edge set. -/
def inDegree (pairs : List (String × String)) (v : String) : Nat :=
  (pairs.filter (fun e => decide (e.2 = v))).length

/-- `G.out_degree v` over a deduplicated edge set. -/
def outDegree (pairs : List (String × String)) (v : String) : Nat :=
  (pairs.filter (fun e => decide (e.1 = v))).length

/-- Declarative reachability: `Reaches edges u v` iff there is a non-empty
directed path from `u` to `v` through `edges`. -/
inductive Reaches (edges : List (String × String)) : String → String → Prop where
  | step {u v : String} : (u, v) ∈ edges → Reaches edges u v
  | trans {u v w : String} : (u, v) ∈ edges → Reaches edges v w → Reaches edges u w

/-- Collect the source of an edge whose target is already collected. -/
def stepFun (acc : List String) (e : String × String) : List String :=
  if e.2 ∈ acc ∧ e.1 ∉ acc then acc ++ [e.1] else acc

/-- One saturation pass: scan the edge list once, adding the source of every
edge whose target is already collected. -/
def stepClosure (edges : List (String × String)) (s : List String) : List String :=
  edges.foldl stepFun s

/-- Model of `nx.ancestors G t`: all nodes with a directed path to `t`,
excluding `t` itself, computed by saturating predecessor steps.
`edges.length + 1` passes always reach the fixed point (proved below). -/
def ancestors (edges : List (String × String)) (t : String) : List String :=
  ((stepClosure edges)^[edges.length + 1] [t]).filter (fun u => decide (u ≠ t))

end NX

/-! ### `app/services/impact.py` — `ImpactAnalysisService` -/

namespace ImpactAnalysisService

/-- `match_node`: first node of the reconstructed graph satisfying
`query == node or query in node`. -/
def match_node (nodes : List String) (query : String) : Option String :=
  nodes.find? (fun node => decide (query = node) || isSubstrOf query node)

/-- The dictionary returned by `calculate_impact`: either the
`{"error": ...}` dictionary or the success dictionary with keys
`target_node`, `impact_radius`, `risk_level`, `affected_modules`. -/
inductive ImpactOutcome where
  | error (msg : String)
  | ok (target_node : String) (impact_radius : Nat) (risk_level : String)
      (affected_modules : List String)
deriving DecidableEq, Repr

/-- The edge pairs fed to the reconstructed `nx.DiGraph` (every edge,
regardless of its `type`). -/
def edgePairs (g : CodeGraph) : List (String × String) :=
  g.edges.map (fun e => (e.source, e.target))

/-- `calculate_impact`: reconstruct the graph, resolve the target
(`if not target_node` also treats a matched empty id as missing, per Python
truthiness), take `nx.ancestors` plus the target itself, and derive the risk
level by the sequential reassignment `LOW` / `> 5 → MEDIUM` / `> 20 → HIGH`. -/
def calculate_impact (g : CodeGraph) (changed_file_or_module : String) : ImpactOutcome :=
  let G_nodes := NX.nodeList (g.nodes.map (fun n => n.id)) (edgePairs g)
  match match_node G_nodes changed_file_or_module with
  | none => .error "Module not found in graph"
  | some target_node =>
    if target_node = "" then .error "Module not found in graph"
    else
      let affected_nodes := NX.ancestors (edgePairs g) target_node ++ [target_node]
      let risk_score := affected_nodes.length
      let risk_level := "LOW"
      let risk_level := if risk_score > 5 then "MEDIUM" else risk_level
      let risk_level := if risk_score > 20 then "HIGH" else risk_level
      .ok target_node affected_nodes.length risk_level affected_nodes

end ImpactAnalysisService

/-! ### `app/agents/change_impact.py` — `ChangeImpactAgent` -/

namespace ChangeImpactAgent

/-- `next((n for n in G.nodes if changed_node_id in n), None)`: the first
node of the reconstructed graph containing the query as a substring. -/
def resolveTarget (g : CodeGraph) (changed_node_id : String) : Option String :=
  (NX.nodeList (g.nodes.map (fun n => n.id)) (ImpactAnalysisService.edgePairs g)).find?
    (fun n => isSubstrOf changed_node_id n)

/-- `_calculate_impact`: resolve the target by substring containment and
return `list(nx.ancestors(G, target))`; a missing (or, by Python truthiness,
empty-id) target yields `[]`.  The `except` branch around `nx.ancestors` is
unreachable because the resolved target is always a node of `G`. -/
def _calculate_impact (g : CodeGraph) (changed_node_id : String) : List String :=
  match resolveTarget g changed_node_id with
  | none => []
  | some target =>
    if target = "" then []
    else NX.ancestors (ImpactAnalysisService.edgePairs g) target

end ChangeImpactAgent

/-! ### `app/agents/code_intelligence.py` — `CodeIntelligenceAgent` -/

namespace CodeIntelligenceAgent

/-- `os.path.basename` for slash-separated relative paths. -/
def basename (s : String) : String :=
  (s.splitOn "/").getLastD ""

/-- One entry of the `file_tree` list handed to `build_graph`, with the file
contents replaced by the outcome of `ast.parse` + the walk of
`_process_python_file`: `parse = none` models a file whose read or parse
raised (the surrounding `try` then appends nothing), and `parse = some refs`
models a successful parse whose AST walk yields the import targets `refs`
(each `alias.name` of an `ast.Import` and each non-`None` `node.module` of an
`ast.ImportFrom`, in walk order). -/
structure AgentFile where
  language : String
  path : String
  parse : Option (List String)
deriving DecidableEq, Repr

/-- `_process_python_file`: on parse success append one `MODULE` node
(metadata placeholder `{"risk": "unknown"}`) and one `IMPORTS` edge per
collected import target; on failure append nothing. -/
def _process_python_file (f : AgentFile) (acc : List CodeNode × List GraphEdge) :
    List CodeNode × List GraphEdge :=
  match f.parse with
  | none => acc
  | some refs =>
    (acc.1 ++ [{ id := f.path, type := .MODULE, name := basename f.path, path := f.path,
                 metadata := { risk := some "unknown" } }],
     acc.2 ++ refs.map (fun r => { source := f.path, target := r, type := .IMPORTS }))

/-- `_calculate_risk`: the first-match risk rule sequence. -/
def _calculate_risk (fan_in fan_out : Nat) : String :=
  if fan_in > 5 ∧ fan_out > 5 then "critical"
  else if fan_in > 3 then "high"
  else if fan_out > 5 then "medium"
  else "low"

/-- The per-file action of the first loop of `build_graph`: only files with
`language == "python"` are processed. -/
def buildStep (acc : List CodeNode × List GraphEdge) (f : AgentFile) :
    List CodeNode × List GraphEdge :=
  if f.language = "python" then _process_python_file f acc else acc

/-- `build_graph`: parse every `"python"` file, build the temporary
`nx.DiGraph` (nodes plus edge endpoints, parallel edges collapsed), then
annotate every node of the node list with its degrees and risk.  The
embedding-generation step (an external AI call touching only
`metadata["embedding"]`) is orchestration and is not modelled. -/
def build_graph (file_tree : List AgentFile) : CodeGraph :=
  let ne := file_tree.foldl buildStep ([], [])
  let nodes := ne.1
  let edges := ne.2
  let pairs := edges.map (fun e => (e.source, e.target))
  let tempNodes := NX.nodeList (nodes.map (fun n => n.id)) pairs
  let tempPairs := NX.dedupPairs pairs
  let nodes := nodes.map (fun node =>
    let fan_in := if node.id ∈ tempNodes then NX.inDegree tempPairs node.id else 0
    let fan_out := if node.id ∈ tempNodes then NX.outDegree tempPairs node.id else 0
    { node with metadata :=
        { node.metadata with
            risk_score := some (_calculate_risk fan_in fan_out),
            metrics := some (fan_in, fan_out) } })
  { nodes := nodes, edges := edges }

end CodeIntelligenceAgent

/-! ### `app/services/intelligence.py` — `CodeIntelligenceService` -/

namespace CodeIntelligenceService

/-- `os.path.basename` for slash-separated relative paths. -/
def basenameSvc (s : String) : String :=
  (s.splitOn "/").getLastD ""

/-- A shallow Python statement AST, covering the constructs
`_process_python_file` dispatches on: `ast.Import` (one name per alias),
`ast.ImportFrom` (whose `module` is `None` for bare relative imports),
`ast.FunctionDef` and `ast.ClassDef` with their statement bodies, and
`other` for any remaining compound statement whose body `ast.walk` still
descends into. -/
inductive PyStmt where
  | imp (names : List String)
  | impFrom (module : Option String)
  | funcDef (name : String) (body : List PyStmt)
  | classDef (name : String) (body : List PyStmt)
  | other (body : List PyStmt)

/-- The child statements `ast.walk` enqueues for a statement. -/
def children : PyStmt → List PyStmt
  | .funcDef _ body => body
  | .classDef _ body => body
  | .other body => body
  | _ => []

theorem sizeOf_append (l₁ l₂ : List PyStmt) :
    sizeOf (l₁ ++ l₂) + 1 = sizeOf l₁ + sizeOf l₂ := by
  induction l₁ with
  | nil => simp; omega
  | cons s rest ih => simp only [List.cons_append, List.cons.sizeOf_spec]; omega

theorem sizeOf_children_lt (s : PyStmt) : sizeOf (children s) < sizeOf s := by
  cases s with
  | imp names => cases names <;> simp [children]
  | impFrom m => cases m <;> simp [children]
  | funcDef n body => simp [children]
  | classDef n body => simp [children]
  | other body => simp [children]

/-- `ast.walk`: breadth-first traversal of all statements reachable from the
queue, yielding each statement before its descendants. -/
def walk (queue : List PyStmt) : List PyStmt :=
  match queue with
  | [] => []
  | s :: rest => s :: walk (rest ++ children s)
termination_by sizeOf queue
decreasing_by
  have h₁ := sizeOf_append rest (children s)
  have h₂ := sizeOf_children_lt s
  simp at *
  omega

/-- The action of one walked statement on the accumulated node/edge lists
(only the `isinstance` branches of `_process_python_file`). -/
def stmtAction (module_id : String) (acc : List CodeNode × List GraphEdge) :
    PyStmt → List CodeNode × List GraphEdge
  | .imp names =>
    (acc.1, acc.2 ++ names.map (fun target =>
      { source := module_id, target := target, type := .IMPORTS }))
  | .impFrom module =>
    match module with
    | some m => (acc.1, acc.2 ++ [{ source := module_id, target := m, type := .IMPORTS }])
    | none => acc
  | .funcDef name _ =>
    (acc.1 ++ [{ id := module_id ++ "::" ++ name, type := .FUNCTION, name := name,
                 path := module_id }],
     acc.2 ++ [{ source := module_id, target := module_id ++ "::" ++ name,
                 type := .DEFINES }])
  | .classDef _ _ => acc
  | .other _ => acc

/-- The successful-parse path of `_process_python_file` for one file: the
module node (with `{"loc": loc}` metadata) followed by the walk over the
parsed body.  The walked `FunctionDef` nodes keep `path := rel_path`
(`module_id` equals `rel_path`). -/
def processPyFile (rel_path : String) (loc : Nat) (body : List PyStmt) :
    List CodeNode × List GraphEdge :=
  (walk body).foldl (stmtAction rel_path)
    ([{ id := rel_path, type := .MODULE, name := basenameSvc rel_path, path := rel_path,
        metadata := { loc := some loc } }], [])

end CodeIntelligenceService

/-! ### `app/services/learning_graph.py` — `LearningGraphService` -/

namespace LearningGraphService

/-- One node of the dictionary comprehension `{n.id: 0 for n in nodes}`:
add a zero entry unless the key is already present. -/
def initStep (m : List (String × Nat)) (n : CodeNode) : List (String × Nat) :=
  if m.any (fun p => decide (p.1 = n.id)) then m else m ++ [(n.id, 0)]

/-- The dictionary comprehension `{n.id: 0 for n in code_graph.nodes}`:
an insertion-ordered association list with one zero entry per distinct node
id (re-insertion of a duplicate id leaves the dictionary unchanged). -/
def initDeps (nodes : List CodeNode) : List (String × Nat) :=
  nodes.foldl initStep []

/-- `dependencies[k] += 1`: increment the entry with key `k`. -/
def bumpDeps (m : List (String × Nat)) (k : String) : List (String × Nat) :=
  m.map (fun p => if p.1 = k then (p.1, p.2 + 1) else p)

/-- One edge of the fan-out pass: an edge of type `IMPORTS` whose source is
a dictionary key bumps that key's count. -/
def depStep (m : List (String × Nat)) (e : GraphEdge) : List (String × Nat) :=
  if e.type = EdgeType.IMPORTS ∧ m.any (fun p => decide (p.1 = e.source)) then
    bumpDeps m e.source
  else m

/-- The fan-out pass over all edges. -/
def buildDeps (g : CodeGraph) : List (String × Nat) :=
  g.edges.foldl depStep (initDeps g.nodes)

/-- `dependencies.get(k, d)`. -/
def getDeps (m : List (String × Nat)) (k : String) (d : Nat) : Nat :=
  match m.find? (fun p => decide (p.1 = k)) with
  | some p => p.2
  | none => d

/-- The learning node built for one module-typed code node
(`difficulty`/`cognitive_load` heuristics and description exactly as in
`construct_learning_path`). -/
def mkLearningNode (g : CodeGraph) (node : CodeNode) : LearningNode :=
  let loc := node.metadata.loc.getD 0
  let dep_count := getDeps (buildDeps g) node.id 0
  let diff_score := min 10 (max 1 (loc / 50))
  let cog_load := min 10 (max 1 (diff_score + dep_count / 2))
  let is_safe := diff_score ≤ 3 ∧ dep_count ≤ 2
  { id := "concept_" ++ node.id,
    concept_name := "Understanding " ++ node.name,
    difficulty := diff_score,
    cognitive_load := cog_load,
    description := "Learn about the module " ++ node.path ++ ". LOC: " ++ toString loc
      ++ ", Deps: " ++ toString dep_count ++ (if is_safe then " (Beginner Safe)" else ""),
    related_code_nodes := [node.id] }

/-- Whether some node of the graph has this id with `type == "module"`
(the keys of the `code_to_learning` dictionary). -/
def moduleBacked (g : CodeGraph) (id : String) : Bool :=
  g.nodes.any (fun n => decide (n.id = id) && decide (n.type = NodeType.MODULE))

/-- The `code_to_learning` dictionary.  The nodes loop stores
`code_to_learning[n.id] = "concept_" + n.id` for exactly the nodes with
`type == "module"`; since the stored value is determined by the key, the
dictionary is the function mapping each module-typed node id to its concept
id. -/
def code_to_learning (g : CodeGraph) (id : String) : Option String :=
  if moduleBacked g id then some ("concept_" ++ id) else none

/-- The per-node loop body of `construct_learning_path`: only module-typed
code nodes become learning nodes. -/
def nodeStep (g : CodeGraph) (acc : List LearningNode) (node : CodeNode) :
    List LearningNode :=
  if node.type = NodeType.MODULE then acc ++ [mkLearningNode g node] else acc

/-- The per-edge loop body of `construct_learning_path`: an `IMPORTS` edge
whose two endpoints both map through `code_to_learning` yields one
`DEPENDS_ON` edge in the prerequisite direction. -/
def edgeStep (g : CodeGraph) (acc : List GraphEdge) (edge : GraphEdge) : List GraphEdge :=
  if edge.type = EdgeType.IMPORTS then
    match code_to_learning g edge.source, code_to_learning g edge.target with
    | some source_conf, some target_conf =>
      acc ++ [{ source := target_conf, target := source_conf, type := .DEPENDS_ON }]
    | _, _ => acc
  else acc

/-- `construct_learning_path`: one learning node per module-typed code node,
one `DEPENDS_ON` edge per qualifying `IMPORTS` edge, and entry points =
learning node ids never appearing as a `DEPENDS_ON` target. -/
def construct_learning_path (g : CodeGraph) : LearningPath :=
  let learning_nodes := g.nodes.foldl (nodeStep g) []
  let learning_edges := g.edges.foldl (edgeStep g) []
  let targets := learning_edges.map (fun e => e.target)
  let entry_points := (learning_nodes.filter (fun n => !(targets.contains n.id))).map
    (fun n => n.id)
  { nodes := learning_nodes, edges := learning_edges, entry_points := entry_points }

end LearningGraphService

/-! ### Statement-side helper definitions and concrete instances -/

namespace CodeIntelligenceService

/-- The `CodeNode` a walked statement contributes (a `FunctionDef` and
nothing else), used to characterise the walk fold. -/
def funcNodeOf (module_id : String) : PyStmt → Option CodeNode
  | .funcDef name _ =>
    some { id := module_id ++ "::" ++ name, type := .FUNCTION, name := name,
           path := module_id }
  | _ => none

/-- The name a walked statement contributes when it is a `FunctionDef`. -/
def funcNameOf : PyStmt → Option String
  | .funcDef name _ => some name
  | _ => none

/-- The names of all `FunctionDef` statements the AST walk visits, in walk
order (nested and method definitions included). -/
def walkFuncNames (body : List PyStmt) : List String :=
  (walk body).filterMap funcNameOf

end CodeIntelligenceService

namespace LearningGraphService

/-- The raw number of `IMPORTS` edges leaving `id` (duplicates counted),
which is what the fan-out pass of `construct_learning_path` counts. -/
def rawFanOut (g : CodeGraph) (id : String) : Nat :=
  (g.edges.filter (fun e => decide (e.type = EdgeType.IMPORTS)
    && decide (e.source = id))).length

/-- Modelled from the spec: the spec's `fan_out(n)` counts distinct imported
target ids, "so duplicate import statements of the same target do not
inflate cognitive_load".  Stated here only to compare against the code's
raw count `rawFanOut`. -/
def specDistinctFanOut (g : CodeGraph) (id : String) : Nat :=
  (((g.edges.filter (fun e => decide (e.type = EdgeType.IMPORTS)
    && decide (e.source = id))).map (fun e => e.target)).dedup).length

end LearningGraphService

/-- The `IMPORTS`-typed edges of a graph as pairs: the edge relation the
spec's "directed path along Imports edges" refers to. -/
def importsPairs (g : CodeGraph) : List (String × String) :=
  (g.edges.filter (fun e => decide (e.type = EdgeType.IMPORTS))).map
    (fun e => (e.source, e.target))

/-- The chain graph of the spec's ancestor-correctness test: `A` imports
`B`, `B` imports `C`. -/
def chainGraph : CodeGraph :=
  { nodes := [{ id := "A", type := .MODULE, name := "A", path := "A" },
              { id := "B", type := .MODULE, name := "B", path := "B" },
              { id := "C", type := .MODULE, name := "C", path := "C" }],
    edges := [{ source := "A", target := "B", type := .IMPORTS },
              { source := "B", target := "C", type := .IMPORTS }] }

/-- The two-node import cycle of the spec's cycle-safety test. -/
def cycleGraph : CodeGraph :=
  { nodes := [{ id := "A", type := .MODULE, name := "A", path := "A" },
              { id := "B", type := .MODULE, name := "B", path := "B" }],
    edges := [{ source := "A", target := "B", type := .IMPORTS },
              { source := "B", target := "A", type := .IMPORTS }] }

/-- A graph whose only edge is a `DEFINES` edge from module `M` to function
node `M::f`. -/
def definesGraph : CodeGraph :=
  { nodes := [{ id := "M", type := .MODULE, name := "M", path := "M" },
              { id := "M::f", type := .FUNCTION, name := "f", path := "M" }],
    edges := [{ source := "M", target := "M::f", type := .DEFINES }] }

/-- A one-node, zero-edge graph. -/
def singleGraph : CodeGraph :=
  { nodes := [{ id := "A", type := .MODULE, name := "A", path := "A" }], edges := [] }

/-- A graph with one module that imports itself. -/
def selfImportGraph : CodeGraph :=
  { nodes := [{ id := "A", type := .MODULE, name := "A", path := "A" }],
    edges := [{ source := "A", target := "A", type := .IMPORTS }] }

/-- A graph with one module carrying two duplicate import edges to the same
(unresolved) target. -/
def dupImportGraph : CodeGraph :=
  { nodes := [{ id := "A", type := .MODULE, name := "A", path := "A" }],
    edges := [{ source := "A", target := "X", type := .IMPORTS },
              { source := "A", target := "X", type := .IMPORTS }] }


/-! ## Correctness of the `nx.ancestors` saturation model -/

namespace NX

theorem stepFun_ext (acc : List String) (e : String × String) :
    ∃ ext, stepFun acc e = acc ++ ext := by
  unfold stepFun
  split
  · exact ⟨[e.1], rfl⟩
  · exact ⟨[], by simp⟩

theorem foldl_stepFun_ext (l : List (String × String)) :
    ∀ s : List String, ∃ ext, l.foldl stepFun s = s ++ ext := by
  induction l with
  | nil => exact fun s => ⟨[], by simp⟩
  | cons e l ih =>
    intro s
    obtain ⟨e₁, h₁⟩ := stepFun_ext s e
    obtain ⟨e₂, h₂⟩ := ih (stepFun s e)
    exact ⟨e₁ ++ e₂, by rw [List.foldl_cons, h₂, h₁, List.append_assoc]⟩

theorem subset_foldl_stepFun (l : List (String × String)) (s : List String) :
    s ⊆ l.foldl stepFun s := by
  obtain ⟨ext, h⟩ := foldl_stepFun_ext l s
  rw [h]
  exact List.subset_append_left s ext

theorem subset_stepClosure (edges : List (String × String)) (s : List String) :
    s ⊆ stepClosure edges s :=
  subset_foldl_stepFun edges s

theorem foldl_stepFun_pred {edges : List (String × String)} {P : String → Prop}
    (hP : ∀ e ∈ edges, P e.2 → P e.1) :
    ∀ (l : List (String × String)), (∀ e ∈ l, e ∈ edges) →
      ∀ s : List String, (∀ u ∈ s, P u) → ∀ u ∈ l.foldl stepFun s, P u := by
  intro l
  induction l with
  | nil => intro _ s hs u hu; exact hs u hu
  | cons e l ih =>
    intro hl s hs
    refine ih (fun e' he' => hl e' (List.mem_cons_of_mem e he')) (stepFun s e) ?_
    intro u hu
    unfold stepFun at hu
    split at hu
    · rcases List.mem_append.1 hu with h | h
      · exact hs u h
      · rename_i hcond
        rw [List.mem_singleton.1 h]
        exact hP e (hl e (List.mem_cons_self e l)) (hs e.2 hcond.1)
    · exact hs u hu

theorem stepClosure_pred {edges : List (String × String)} {P : String → Prop}
    (hP : ∀ e ∈ edges, P e.2 → P e.1) (s : List String) (hs : ∀ u ∈ s, P u) :
    ∀ u ∈ stepClosure edges s, P u :=
  foldl_stepFun_pred hP edges (fun _ he => he) s hs

theorem mem_stepClosure_of_edge {edges : List (String × String)} {e : String × String}
    {s : List String} (he : e ∈ edges) (h2 : e.2 ∈ s) : e.1 ∈ stepClosure edges s := by
  obtain ⟨l₁, l₂, rfl⟩ := List.append_of_mem he
  unfold stepClosure
  rw [List.foldl_append, List.foldl_cons]
  have hsub : s ⊆ l₁.foldl stepFun s := subset_foldl_stepFun l₁ s
  have hmem : e.1 ∈ stepFun (l₁.foldl stepFun s) e := by
    unfold stepFun
    split
    · exact List.mem_append.2 (Or.inr (List.mem_singleton_self e.1))
    · rename_i hcond
      rw [not_and_or] at hcond
      rcases hcond with h | h
      · exact absurd (hsub h2) h
      · exact not_not.1 h
  exact subset_foldl_stepFun l₂ (stepFun (l₁.foldl stepFun s) e) hmem

theorem foldl_stepFun_nodup (l : List (String × String)) :
    ∀ s : List String, s.Nodup → (l.foldl stepFun s).Nodup := by
  induction l with
  | nil => exact fun s hs => hs
  | cons e l ih =>
    intro s hs
    refine ih (stepFun s e) ?_
    unfold stepFun
    split
    · rename_i hcond
      simp [List.nodup_append, hs, hcond.2]
    · exact hs

theorem foldl_stepFun_src (edges : List (String × String)) :
    ∀ (l : List (String × String)), (∀ e ∈ l, e ∈ edges) →
      ∀ s : List String, ∀ u ∈ l.foldl stepFun s,
        u ∈ s ∨ u ∈ edges.map Prod.fst := by
  intro l
  induction l with
  | nil => intro _ s u hu; exact Or.inl hu
  | cons e l ih =>
    intro hl s u hu
    rcases ih (fun e' he' => hl e' (List.mem_cons_of_mem e he')) (stepFun s e) u hu with
      h | h
    · unfold stepFun at h
      split at h
      · rcases List.mem_append.1 h with h' | h'
        · exact Or.inl h'
        · refine Or.inr ?_
          rw [List.mem_singleton.1 h']
          exact List.mem_map.2 ⟨e, hl e (List.mem_cons_self e l), rfl⟩
      · exact Or.inl h
    · exact Or.inr h

theorem iter_subset (edges : List (String × String)) (s : List String) :
    ∀ k, s ⊆ (stepClosure edges)^[k] s := by
  intro k
  induction k with
  | zero => exact fun u hu => hu
  | succ k ih =>
    rw [Function.iterate_succ_apply']
    exact fun u hu => subset_stepClosure edges _ (ih hu)

theorem iter_sound (edges : List (String × String)) (t : String) :
    ∀ k, ∀ u ∈ (stepClosure edges)^[k] [t], u = t ∨ Reaches edges u t := by
  intro k
  induction k with
  | zero => intro u hu; exact Or.inl (List.mem_singleton.1 hu)
  | succ k ih =>
    rw [Function.iterate_succ_apply']
    refine stepClosure_pred ?_ _ ih
    intro e he hPe
    rcases hPe with h | h
    · refine Or.inr (Reaches.step ?_)
      have : (e.1, e.2) = e := rfl
      rw [h] at this
      rw [← this] at he
      exact he
    · refine Or.inr (Reaches.trans ?_ h)
      have : (e.1, e.2) = e := rfl
      rw [← this] at he
      exact he

theorem iter_nodup (edges : List (String × String)) (t : String) (k : Nat) :
    ((stepClosure edges)^[k] [t]).Nodup := by
  induction k with
  | zero => exact List.nodup_singleton t
  | succ k ih =>
    rw [Function.iterate_succ_apply']
    exact foldl_stepFun_nodup edges _ ih

theorem iter_subset_src (edges : List (String × String)) (t : String) (k : Nat) :
    (stepClosure edges)^[k] [t] ⊆ t :: edges.map Prod.fst := by
  induction k with
  | zero =>
    intro u hu
    rw [List.mem_singleton.1 hu]
    exact List.mem_cons_self t _
  | succ k ih =>
    rw [Function.iterate_succ_apply']
    intro u hu
    rcases foldl_stepFun_src edges edges (fun _ he => he) _ u hu with h | h
    · exact ih h
    · exact List.mem_cons_of_mem t h

theorem nodup_length_le {l m : List String} (hn : l.Nodup) (hs : l ⊆ m) :
    l.length ≤ m.length := by
  have h₁ : l.toFinset.card = l.length := List.toFinset_card_of_nodup hn
  have h₂ : l.toFinset ⊆ m.toFinset := by
    intro x hx
    rw [List.mem_toFinset] at hx ⊢
    exact hs hx
  calc l.length = l.toFinset.card := h₁.symm
    _ ≤ m.toFinset.card := Finset.card_le_card h₂
    _ ≤ m.length := m.toFinset_card_le

theorem stepClosure_grow {edges : List (String × String)} {s : List String}
    (h : stepClosure edges s ≠ s) : s.length + 1 ≤ (stepClosure edges s).length := by
  obtain ⟨ext, hext⟩ := foldl_stepFun_ext edges s
  have hext' : stepClosure edges s = s ++ ext := hext
  rw [hext'] at h ⊢
  cases ext with
  | nil => exact absurd (by simp) h
  | cons a l => simp

theorem iter_fixpoint (edges : List (String × String)) (t : String) :
    stepClosure edges ((stepClosure edges)^[edges.length + 1] [t])
      = (stepClosure edges)^[edges.length + 1] [t] := by
  set F := stepClosure edges with hF
  set N := edges.length + 1 with hN
  by_cases hstall : ∃ k, k < N ∧ F^[k + 1] [t] = F^[k] [t]
  · obtain ⟨k, hkN, hfix⟩ := hstall
    have hfixF : F (F^[k] [t]) = F^[k] [t] := by
      rw [← Function.iterate_succ_apply' F k [t]]
      exact hfix
    have hstable : ∀ m, F^[m] (F^[k] [t]) = F^[k] [t] := by
      intro m
      induction m with
      | zero => rfl
      | succ m ih => rw [Function.iterate_succ_apply', ih, hfixF]
    have hNk : F^[N] [t] = F^[k] [t] := by
      have : N = (N - k) + k := by omega
      rw [this, Function.iterate_add_apply]
      exact hstable (N - k)
    rw [hNk, hfixF]
  · exfalso
    push_neg at hstall
    have hgrow : ∀ k, k ≤ N → k + 1 ≤ (F^[k] [t]).length := by
      intro k
      induction k with
      | zero => intro _; simp
      | succ k ih =>
        intro hk
        have h₁ := ih (Nat.le_of_succ_le hk)
        have h₂ := hstall k (Nat.lt_of_succ_le hk)
        rw [Function.iterate_succ_apply'] at h₂ ⊢
        have h₃ := stepClosure_grow h₂
        have hb : stepClosure edges (F^[k] [t]) = F (F^[k] [t]) := rfl
        rw [hb] at h₃
        omega
    have hbound : (F^[N] [t]).length ≤ edges.length + 1 := by
      have h := nodup_length_le (iter_nodup edges t N) (iter_subset_src edges t N)
      simpa using h
    have := hgrow N (Nat.le_refl N)
    omega

theorem mem_iter_of_reaches (edges : List (String × String)) (t : String) :
    ∀ u w, Reaches edges u w → w ∈ (stepClosure edges)^[edges.length + 1] [t] →
      u ∈ (stepClosure edges)^[edges.length + 1] [t] := by
  intro u w h
  induction h with
  | step he =>
    intro hw
    have := mem_stepClosure_of_edge (s := (stepClosure edges)^[edges.length + 1] [t])
      he hw
    rwa [iter_fixpoint edges t] at this
  | trans he _ ih =>
    intro hw
    have := mem_stepClosure_of_edge (s := (stepClosure edges)^[edges.length + 1] [t])
      he (ih hw)
    rwa [iter_fixpoint edges t] at this

/-- Correctness of the `nx.ancestors` model: membership in the computed list
is exactly non-trivial reachability to the target. -/
theorem mem_ancestors {edges : List (String × String)} {t u : String} :
    u ∈ ancestors edges t ↔ Reaches edges u t ∧ u ≠ t := by
  unfold ancestors
  rw [List.mem_filter]
  constructor
  · rintro ⟨hmem, hne⟩
    have hne' : u ≠ t := of_decide_eq_true hne
    rcases iter_sound edges t (edges.length + 1) u hmem with h | h
    · exact absurd h hne'
    · exact ⟨h, hne'⟩
  · rintro ⟨hr, hne⟩
    refine ⟨?_, decide_eq_true hne⟩
    refine mem_iter_of_reaches edges t u t hr ?_
    exact iter_subset edges [t] (edges.length + 1) (List.mem_singleton_self t)

/-- The `nx.ancestors` model never lists a node twice. -/
theorem ancestors_nodup (edges : List (String × String)) (t : String) :
    (ancestors edges t).Nodup :=
  (iter_nodup edges t (edges.length + 1)).filter _

end NX
/-! ## Claims -/

/-- C2 counterexample: with graph nodes `["ab", "b"]` and query `"b"`, the
later node `"b"` is an exact match, yet target resolution returns `"ab"`,
the earlier node containing the query as a proper substring — so exact id
matches are not tried first. -/
theorem match_node_no_exact_priority :
    ImpactAnalysisService.match_node ["ab", "b"] "b" = some "ab"
    ∧ ("ab" : String) ≠ "b" := by
  constructor
  · rfl
  · decide

/-- C2 (amended): target resolution is a single pass returning the first
node (in insertion order) whose id contains the query as a substring; the
exact-equality test of the service is subsumed by containment and gives
exact matches no priority, and the agent's resolution tests only
containment. -/
theorem match_node_first_substring :
    (∀ (nodes : List String) (q : String),
      ImpactAnalysisService.match_node nodes q
        = nodes.find? (fun n => isSubstrOf q n))
    ∧ (∀ (g : CodeGraph) (q : String),
      ChangeImpactAgent.resolveTarget g q
        = (NX.nodeList (g.nodes.map (fun n => n.id))
            (ImpactAnalysisService.edgePairs g)).find? (fun n => isSubstrOf q n)) := by
  constructor
  · intro nodes q
    unfold ImpactAnalysisService.match_node
    congr 1
    funext n
    by_cases h : q = n
    · subst h
      simp [isSubstrOf_self]
    · simp [h]
  · intro g q
    rfl

/-- C3: the risk label is computed by the first-match rule sequence
`fan_in > 5 ∧ fan_out > 5 → critical`, else `fan_in > 3 → high`, else
`fan_out > 5 → medium`, else `low`; in particular (6,6) is critical,
(4,0) is high, (0,6) is medium and (1,1) is low. -/
theorem calculate_risk_first_match :
    (∀ fan_in fan_out : Nat,
      (fan_in > 5 ∧ fan_out > 5 →
        CodeIntelligenceAgent._calculate_risk fan_in fan_out = "critical")
      ∧ (¬(fan_in > 5 ∧ fan_out > 5) → fan_in > 3 →
        CodeIntelligenceAgent._calculate_risk fan_in fan_out = "high")
      ∧ (¬(fan_in > 5 ∧ fan_out > 5) → ¬(fan_in > 3) → fan_out > 5 →
        CodeIntelligenceAgent._calculate_risk fan_in fan_out = "medium")
      ∧ (¬(fan_in > 5 ∧ fan_out > 5) → ¬(fan_in > 3) → ¬(fan_out > 5) →
        CodeIntelligenceAgent._calculate_risk fan_in fan_out = "low"))
    ∧ CodeIntelligenceAgent._calculate_risk 6 6 = "critical"
    ∧ CodeIntelligenceAgent._calculate_risk 4 0 = "high"
    ∧ CodeIntelligenceAgent._calculate_risk 0 6 = "medium"
    ∧ CodeIntelligenceAgent._calculate_risk 1 1 = "low" := by
  refine ⟨?_, rfl, rfl, rfl, rfl⟩
  intro fan_in fan_out
  refine ⟨?_, ?_, ?_, ?_⟩
  · intro h
    unfold CodeIntelligenceAgent._calculate_risk
    rw [if_pos h]
  · intro h1 h2
    unfold CodeIntelligenceAgent._calculate_risk
    rw [if_neg h1, if_pos h2]
  · intro h1 h2 h3
    unfold CodeIntelligenceAgent._calculate_risk
    rw [if_neg h1, if_neg h2, if_pos h3]
  · intro h1 h2 h3
    unfold CodeIntelligenceAgent._calculate_risk
    rw [if_neg h1, if_neg h2, if_neg h3]

/-- Witness for C3: the four concrete evaluations obtained by applying the
rule theorem. -/
theorem calculate_risk_first_match_witness :
    CodeIntelligenceAgent._calculate_risk 6 6 = "critical"
    ∧ CodeIntelligenceAgent._calculate_risk 4 0 = "high"
    ∧ CodeIntelligenceAgent._calculate_risk 0 6 = "medium"
    ∧ CodeIntelligenceAgent._calculate_risk 1 1 = "low" :=
  ⟨(calculate_risk_first_match.1 6 6).1 (by decide),
   (calculate_risk_first_match.1 4 0).2.1 (by decide) (by decide),
   (calculate_risk_first_match.1 0 6).2.2.1 (by decide) (by decide) (by decide),
   (calculate_risk_first_match.1 1 1).2.2.2 (by decide) (by decide) (by decide)⟩

/-- C1 counterexample: in `definesGraph` (one `DEFINES` edge `M → M::f`),
the query `"M::f"` resolves to `M::f` and impact analysis reports `M` as
affected, although `M` has no directed path to `M::f` along `Imports`
edges — the traversal ignores edge kinds, so the affected set is not the
set of Imports-ancestors. -/
theorem change_impact_follows_defines_edges :
    "M" ∈ ChangeImpactAgent._calculate_impact definesGraph "M::f"
    ∧ ¬ NX.Reaches (importsPairs definesGraph) "M" "M::f" := by
  constructor
  · decide
  · intro h
    have hmem : "M" ∈ NX.ancestors (importsPairs definesGraph) "M::f" :=
      NX.mem_ancestors.2 ⟨h, by decide⟩
    have hnil : NX.ancestors (importsPairs definesGraph) "M::f" = [] := by decide
    rw [hnil] at hmem
    exact absurd hmem (List.not_mem_nil "M")

/-- C1 (amended): for every graph and every query that resolves to a
(non-empty-id) target, the affected set equals the set of node ids with a
directed path to the target along edges of any kind (the traversal ignores
edge types; on Imports-only graphs this is the Imports-ancestor set),
excluding the target itself; on the chain graph `A → B → C` the affected
set of `C` is `{A, B}` and the affected set of `A` is empty. -/
theorem change_impact_affected_iff_reaches :
    (∀ (g : CodeGraph) (q t : String), ChangeImpactAgent.resolveTarget g q = some t →
      t ≠ "" → ∀ u : String,
        u ∈ ChangeImpactAgent._calculate_impact g q ↔
          NX.Reaches (ImpactAnalysisService.edgePairs g) u t ∧ u ≠ t)
    ∧ ("A" ∈ ChangeImpactAgent._calculate_impact chainGraph "C"
        ∧ "B" ∈ ChangeImpactAgent._calculate_impact chainGraph "C"
        ∧ (ChangeImpactAgent._calculate_impact chainGraph "C").length = 2)
    ∧ ChangeImpactAgent._calculate_impact chainGraph "A" = [] := by
  refine ⟨?_, by decide, by decide⟩
  intro g q t hres hne u
  unfold ChangeImpactAgent._calculate_impact
  rw [hres]
  dsimp only
  rw [if_neg hne]
  exact NX.mem_ancestors

/-- Witness for C1: the general characterisation applied to the chain graph
with query `"C"` at node `"A"`. -/
theorem change_impact_affected_iff_reaches_witness :
    "A" ∈ ChangeImpactAgent._calculate_impact chainGraph "C" ↔
      NX.Reaches (ImpactAnalysisService.edgePairs chainGraph) "A" "C" ∧ "A" ≠ "C" :=
  change_impact_affected_iff_reaches.1 chainGraph "C" "C" (by decide) (by decide) "A"

/-- C4: impact analysis is a total function that records each node at most
once (the affected list is duplicate-free for every graph and query, cycles
included), and on the two-node import cycle `A → B → A` the affected set of
`A` is exactly `{B}`. -/
theorem change_impact_cycle_safe :
    (∀ (g : CodeGraph) (q : String), (ChangeImpactAgent._calculate_impact g q).Nodup)
    ∧ ChangeImpactAgent._calculate_impact cycleGraph "A" = ["B"] := by
  refine ⟨?_, by decide⟩
  intro g q
  unfold ChangeImpactAgent._calculate_impact
  split
  · exact List.nodup_nil
  · split
    · exact List.nodup_nil
    · exact NX.ancestors_nodup _ _

/-- C9: when the query matches no node of the reconstructed graph (neither
exactly nor as a substring of any node id), `calculate_impact` returns the
explicit `{"error": "Module not found in graph"}` outcome — a value of the
result type, not an exception — and that outcome is distinguishable from
every success outcome. -/
theorem impact_not_found_error :
    (∀ (g : CodeGraph) (q : String),
      (∀ n ∈ NX.nodeList (g.nodes.map (fun n => n.id))
          (ImpactAnalysisService.edgePairs g),
        q ≠ n ∧ isSubstrOf q n = false) →
      ImpactAnalysisService.calculate_impact g q = .error "Module not found in graph")
    ∧ (∀ (msg target : String) (radius : Nat) (lvl : String) (aff : List String),
      ImpactAnalysisService.ImpactOutcome.error msg ≠ .ok target radius lvl aff) := by
  constructor
  · intro g q h
    unfold ImpactAnalysisService.calculate_impact
    have hnone : ImpactAnalysisService.match_node
        (NX.nodeList (g.nodes.map (fun n => n.id)) (ImpactAnalysisService.edgePairs g))
        q = none := by
      unfold ImpactAnalysisService.match_node
      rw [List.find?_eq_none]
      intro n hn
      obtain ⟨h1, h2⟩ := h n hn
      simp [h1, h2]
    dsimp only
    rw [hnone]
  · intro msg target radius lvl aff h
    exact ImpactAnalysisService.ImpactOutcome.noConfusion h

/-- Witness for C9: a one-node graph and the query `"zz"`, which matches
nothing, produce the explicit error outcome. -/
theorem impact_not_found_error_witness :
    ImpactAnalysisService.calculate_impact singleGraph "zz"
      = .error "Module not found in graph" :=
  impact_not_found_error.1 singleGraph "zz" (by decide)

/-- C10: every successful `calculate_impact` result satisfies the
invariants: the target is in `affected_modules`, `impact_radius` equals the
length of `affected_modules` (hence is at least 1), and `risk_level` is
derived from that self-inclusive count — `LOW` for at most 5, `MEDIUM` for
6 to 20, `HIGH` above 20. -/
theorem impact_result_invariants :
    ∀ (g : CodeGraph) (q target : String) (radius : Nat) (lvl : String)
      (aff : List String),
      ImpactAnalysisService.calculate_impact g q = .ok target radius lvl aff →
      target ∈ aff ∧ radius = aff.length ∧ 1 ≤ radius
      ∧ (radius ≤ 5 → lvl = "LOW")
      ∧ (6 ≤ radius → radius ≤ 20 → lvl = "MEDIUM")
      ∧ (20 < radius → lvl = "HIGH") := by
  intro g q target radius lvl aff h
  unfold ImpactAnalysisService.calculate_impact at h
  dsimp only at h
  split at h
  · exact absurd h (fun hc => ImpactAnalysisService.ImpactOutcome.noConfusion hc)
  · rename_i tn heq
    split at h
    · exact absurd h (fun hc => ImpactAnalysisService.ImpactOutcome.noConfusion hc)
    · simp only [ImpactAnalysisService.ImpactOutcome.ok.injEq] at h
      obtain ⟨ht, hr, hl, ha⟩ := h
      subst ht hr hl ha
      refine ⟨List.mem_append.2 (Or.inr (List.mem_singleton_self _)), rfl, ?_,
        ?_, ?_, ?_⟩
      · simp
      · intro hle
        rw [List.length_append, List.length_singleton] at hle ⊢
        rw [if_neg (by omega), if_neg (by omega)]
      · intro hge hle
        rw [List.length_append, List.length_singleton] at hge hle ⊢
        rw [if_neg (by omega), if_pos (by omega)]
      · intro hgt
        rw [List.length_append, List.length_singleton] at hgt ⊢
        rw [if_pos (by omega)]

/-- Witness for C10: the invariants instantiated on a one-node graph
(`affected = ["A"]`, radius 1, level `LOW`). -/
theorem impact_result_invariants_witness :
    "A" ∈ (["A"] : List String) ∧ 1 = (["A"] : List String).length ∧ 1 ≤ 1
    ∧ (1 ≤ 5 → "LOW" = "LOW") ∧ (6 ≤ 1 → 1 ≤ 20 → "LOW" = "MEDIUM")
    ∧ (20 < 1 → "LOW" = "HIGH") :=
  impact_result_invariants singleGraph "A" "A" 1 "LOW" ["A"] (by decide)

namespace CodeIntelligenceAgent

theorem buildStep_sub (acc : List CodeNode × List GraphEdge) (f : AgentFile) :
    acc.1 ⊆ (buildStep acc f).1 ∧ acc.2 ⊆ (buildStep acc f).2 := by
  unfold buildStep _process_python_file
  split
  · split
    · exact ⟨fun x h => h, fun x h => h⟩
    · exact ⟨List.subset_append_left _ _, List.subset_append_left _ _⟩
  · exact ⟨fun x h => h, fun x h => h⟩

theorem foldl_buildStep_sub (files : List AgentFile) :
    ∀ acc : List CodeNode × List GraphEdge,
      acc.1 ⊆ (files.foldl buildStep acc).1 ∧ acc.2 ⊆ (files.foldl buildStep acc).2 := by
  induction files with
  | nil => exact fun acc => ⟨fun x h => h, fun x h => h⟩
  | cons f files ih =>
    intro acc
    obtain ⟨h1, h2⟩ := buildStep_sub acc f
    obtain ⟨h1', h2'⟩ := ih (buildStep acc f)
    exact ⟨fun x h => h1' (h1 h), fun x h => h2' (h2 h)⟩

theorem foldl_buildStep_edge (files : List AgentFile) :
    ∀ (acc : List CodeNode × List GraphEdge) (A X : String),
      (∃ f ∈ files, f.language = "python" ∧ f.path = A
        ∧ ∃ refs, f.parse = some refs ∧ X ∈ refs) →
      ({ source := A, target := X, type := .IMPORTS } : GraphEdge)
        ∈ (files.foldl buildStep acc).2 := by
  induction files with
  | nil =>
    intro acc A X h
    obtain ⟨f, hf, _⟩ := h
    exact absurd hf (List.not_mem_nil f)
  | cons f files ih =>
    intro acc A X h
    obtain ⟨f', hf', hlang, hpath, refs, hparse, hX⟩ := h
    rcases List.mem_cons.1 hf' with rfl | htail
    · rw [List.foldl_cons]
      refine (foldl_buildStep_sub files (buildStep acc f')).2 ?_
      unfold buildStep _process_python_file
      rw [if_pos hlang, hparse]
      refine List.mem_append.2 (Or.inr ?_)
      refine List.mem_map.2 ⟨X, hX, ?_⟩
      rw [hpath]
    · exact ih (buildStep acc f) A X ⟨f', htail, hlang, hpath, refs, hparse, hX⟩

theorem foldl_buildStep_node (files : List AgentFile) :
    ∀ (acc : List CodeNode × List GraphEdge) (n : CodeNode),
      n ∈ (files.foldl buildStep acc).1 →
      n ∈ acc.1 ∨ ∃ f ∈ files, f.language = "python" ∧ f.path = n.id
        ∧ f.parse ≠ none := by
  induction files with
  | nil => exact fun acc n h => Or.inl h
  | cons f files ih =>
    intro acc n h
    rw [List.foldl_cons] at h
    rcases ih (buildStep acc f) n h with hmem | ⟨f', hf', hrest⟩
    · unfold buildStep _process_python_file at hmem
      split at hmem
      · rename_i hlang
        split at hmem
        · exact Or.inl hmem
        · rename_i refs hparse
          rcases List.mem_append.1 hmem with hacc | hnew
          · exact Or.inl hacc
          · refine Or.inr ⟨f, List.mem_cons_self f files, hlang, ?_, ?_⟩
            · rw [List.mem_singleton.1 hnew]
            · rw [hparse]
              exact fun hc => Option.noConfusion hc
      · exact Or.inl hmem
    · exact Or.inr ⟨f', List.mem_cons_of_mem f hf', hrest⟩

end CodeIntelligenceAgent

/-- C5: if some successfully parsed python file `A` emits a reference to a
name `X` that is the id of no node (no parsed python file has path `X`),
then the built graph still contains the `IMPORTS` edge `A → X`, no node
with id `X` is added to the node list, and the metrics/risk pass (a total
function) annotates exactly the listed nodes — the fan-in of the
non-existent node `X` is never computed or dereferenced. -/
theorem build_graph_dangling_safe :
    ∀ (files : List CodeIntelligenceAgent.AgentFile) (A X : String),
      (∃ f ∈ files, f.language = "python" ∧ f.path = A
        ∧ ∃ refs, f.parse = some refs ∧ X ∈ refs) →
      (∀ f ∈ files, f.language = "python" → f.parse ≠ none → f.path ≠ X) →
      ({ source := A, target := X, type := .IMPORTS } : GraphEdge)
          ∈ (CodeIntelligenceAgent.build_graph files).edges
      ∧ (∀ n ∈ (CodeIntelligenceAgent.build_graph files).nodes, n.id ≠ X)
      ∧ (∀ n ∈ (CodeIntelligenceAgent.build_graph files).nodes, ∃ fan_in fan_out,
          n.metadata.metrics = some (fan_in, fan_out)
          ∧ n.metadata.risk_score
              = some (CodeIntelligenceAgent._calculate_risk fan_in fan_out)) := by
  intro files A X hemit hnonode
  unfold CodeIntelligenceAgent.build_graph
  dsimp only
  refine ⟨CodeIntelligenceAgent.foldl_buildStep_edge files ([], []) A X hemit, ?_, ?_⟩
  · intro n hn
    obtain ⟨orig, horig, hmap⟩ := List.mem_map.1 hn
    have hid : n.id = orig.id := by rw [← hmap]
    rcases CodeIntelligenceAgent.foldl_buildStep_node files ([], []) orig horig with
      hnil | ⟨f, hf, hlang, hpath, hparse⟩
    · exact absurd hnil (List.not_mem_nil orig)
    · rw [hid, ← hpath]
      exact hnonode f hf hlang hparse
  · intro n hn
    obtain ⟨orig, _, hmap⟩ := List.mem_map.1 hn
    subst hmap
    exact ⟨_, _, rfl, rfl⟩

/-- Witness for C5: one parsed python file `A` importing the unresolved
name `X`. -/
theorem build_graph_dangling_safe_witness :
    ({ source := "A", target := "X", type := .IMPORTS } : GraphEdge)
        ∈ (CodeIntelligenceAgent.build_graph
            [{ language := "python", path := "A", parse := some ["X"] }]).edges
    ∧ (∀ n ∈ (CodeIntelligenceAgent.build_graph
            [{ language := "python", path := "A", parse := some ["X"] }]).nodes,
        n.id ≠ "X")
    ∧ (∀ n ∈ (CodeIntelligenceAgent.build_graph
            [{ language := "python", path := "A", parse := some ["X"] }]).nodes,
        ∃ fan_in fan_out,
          n.metadata.metrics = some (fan_in, fan_out)
          ∧ n.metadata.risk_score
              = some (CodeIntelligenceAgent._calculate_risk fan_in fan_out)) :=
  build_graph_dangling_safe
    [{ language := "python", path := "A", parse := some ["X"] }] "A" "X"
    ⟨{ language := "python", path := "A", parse := some ["X"] },
      by decide, rfl, rfl, ["X"], rfl, by decide⟩
    (by decide)

namespace CodeIntelligenceService

theorem walk_nil : walk [] = [] := by
  rw [walk]

theorem walk_cons (s : PyStmt) (rest : List PyStmt) :
    walk (s :: rest) = s :: walk (rest ++ children s) := by
  rw [walk]

theorem foldl_stmtAction_nodes (mid : String) (l : List PyStmt) :
    ∀ acc : List CodeNode × List GraphEdge,
      (l.foldl (stmtAction mid) acc).1 = acc.1 ++ l.filterMap (funcNodeOf mid) := by
  induction l with
  | nil => intro acc; simp
  | cons s l ih =>
    intro acc
    rw [List.foldl_cons, List.filterMap_cons]
    cases s with
    | imp names => simp [stmtAction, funcNodeOf, ih]
    | impFrom m => cases m <;> simp [stmtAction, funcNodeOf, ih]
    | funcDef name body => simp [stmtAction, funcNodeOf, ih, List.append_assoc]
    | classDef name body => simp [stmtAction, funcNodeOf, ih]
    | other body => simp [stmtAction, funcNodeOf, ih]

/-- The node list produced for one parsed file: the module node followed by
one function node per `FunctionDef` the walk visits, in walk order. -/
theorem processPyFile_nodes (rel_path : String) (loc : Nat) (body : List PyStmt) :
    (processPyFile rel_path loc body).1
      = { id := rel_path, type := .MODULE, name := basenameSvc rel_path,
          path := rel_path, metadata := { loc := some loc } }
        :: (walk body).filterMap (funcNodeOf rel_path) := by
  unfold processPyFile
  rw [foldl_stmtAction_nodes]
  rfl

theorem mem_filterMap_funcNodeOf {mid : String} {l : List PyStmt} :
    ∀ n ∈ l.filterMap (funcNodeOf mid), n.type = NodeType.FUNCTION := by
  intro n hn
  obtain ⟨s, _, hs⟩ := List.mem_filterMap.1 hn
  cases s with
  | imp names => simp [funcNodeOf] at hs
  | impFrom m => simp [funcNodeOf] at hs
  | funcDef name body =>
    simp only [funcNodeOf, Option.some.injEq] at hs
    rw [← hs]
  | classDef name body => simp [funcNodeOf] at hs
  | other body => simp [funcNodeOf] at hs

theorem map_id_filterMap_funcNodeOf (mid : String) (l : List PyStmt) :
    (l.filterMap (funcNodeOf mid)).map (fun n => n.id)
      = (l.filterMap funcNameOf).map (fun nm => mid ++ "::" ++ nm) := by
  induction l with
  | nil => rfl
  | cons s l ih => cases s <;> simp [funcNodeOf, funcNameOf, List.filterMap_cons, ih]

theorem walk_nested_example :
    walk [PyStmt.classDef "C" [], PyStmt.funcDef "f" [PyStmt.funcDef "g" []]]
      = [PyStmt.classDef "C" [], PyStmt.funcDef "f" [PyStmt.funcDef "g" []],
         PyStmt.funcDef "g" []] := by
  simp [walk_cons, walk_nil, children]

end CodeIntelligenceService

/-- C6 counterexample: for the parsed file body `class C: pass` followed by
`def f(): def g(): ...`, the extractor emits a `Function` entity
`m.py::g` for the declaration nested inside `f` (the AST walk descends into
bodies), and emits no entity at all for the top-level class `C` — so
extraction is neither limited to top-level declarations nor does it emit
Class entities. -/
theorem extract_nested_emitted_class_skipped :
    "m.py::g" ∈ ((CodeIntelligenceService.processPyFile "m.py" 5
        [CodeIntelligenceService.PyStmt.classDef "C" [],
         CodeIntelligenceService.PyStmt.funcDef "f"
           [CodeIntelligenceService.PyStmt.funcDef "g" []]]).1.map (fun n => n.id))
    ∧ "m.py::C" ∉ ((CodeIntelligenceService.processPyFile "m.py" 5
        [CodeIntelligenceService.PyStmt.classDef "C" [],
         CodeIntelligenceService.PyStmt.funcDef "f"
           [CodeIntelligenceService.PyStmt.funcDef "g" []]]).1.map (fun n => n.id)) := by
  rw [CodeIntelligenceService.processPyFile_nodes,
    CodeIntelligenceService.walk_nested_example]
  decide

/-- C6 (amended): for every parsed Python file, extraction emits exactly one
`Module` entity identified by the relative path, one `Function` entity per
`FunctionDef` at any nesting depth (the AST walk visits nested and method
definitions too, emitting `"<rel_path>::<name>"` ids in walk order), and no
`Class` entities at all. -/
theorem extract_one_module_funcs_any_depth :
    ∀ (rel_path : String) (loc : Nat)
      (body : List CodeIntelligenceService.PyStmt),
      (((CodeIntelligenceService.processPyFile rel_path loc body).1.filter
          (fun n => decide (n.type = NodeType.MODULE))).map (fun n => n.id)
        = [rel_path])
      ∧ (((CodeIntelligenceService.processPyFile rel_path loc body).1.filter
          (fun n => decide (n.type = NodeType.FUNCTION))).map (fun n => n.id)
        = (CodeIntelligenceService.walkFuncNames body).map
            (fun nm => rel_path ++ "::" ++ nm))
      ∧ (∀ n ∈ (CodeIntelligenceService.processPyFile rel_path loc body).1,
          n.type ≠ NodeType.CLASS) := by
  intro rel_path loc body
  rw [CodeIntelligenceService.processPyFile_nodes]
  refine ⟨?_, ?_, ?_⟩
  · rw [List.filter_cons_of_pos (by simp), List.filter_eq_nil_iff.2 ?_]
    · rfl
    · intro n hn
      simp [CodeIntelligenceService.mem_filterMap_funcNodeOf n hn]
  · rw [List.filter_cons_of_neg (by simp), List.filter_eq_self.2 ?_]
    · exact CodeIntelligenceService.map_id_filterMap_funcNodeOf rel_path (CodeIntelligenceService.walk body)
    · intro n hn
      simp [CodeIntelligenceService.mem_filterMap_funcNodeOf n hn]
  · intro n hn
    rcases List.mem_cons.1 hn with rfl | htail
    · simp
    · rw [CodeIntelligenceService.mem_filterMap_funcNodeOf n htail]
      exact fun hc => NodeType.noConfusion hc

namespace LearningGraphService

theorem edgeStep_append (g : CodeGraph) (acc : List GraphEdge) (e : GraphEdge)
    (h1 : e.type = EdgeType.IMPORTS) (h2 : moduleBacked g e.source = true)
    (h3 : moduleBacked g e.target = true) :
    edgeStep g acc e
      = acc ++ [{ source := "concept_" ++ e.target, target := "concept_" ++ e.source,
                  type := .DEPENDS_ON }] := by
  unfold edgeStep code_to_learning
  rw [if_pos h1, if_pos h2, if_pos h3]

theorem edgeStep_skip_type (g : CodeGraph) (acc : List GraphEdge) (e : GraphEdge)
    (h1 : ¬ e.type = EdgeType.IMPORTS) : edgeStep g acc e = acc := by
  unfold edgeStep
  rw [if_neg h1]

theorem edgeStep_skip_src (g : CodeGraph) (acc : List GraphEdge) (e : GraphEdge)
    (h1 : e.type = EdgeType.IMPORTS) (h2 : moduleBacked g e.source = false) :
    edgeStep g acc e = acc := by
  unfold edgeStep code_to_learning
  rw [if_pos h1, if_neg (by simp [h2])]

theorem edgeStep_skip_tgt (g : CodeGraph) (acc : List GraphEdge) (e : GraphEdge)
    (h1 : e.type = EdgeType.IMPORTS) (h3 : moduleBacked g e.target = false) :
    edgeStep g acc e = acc := by
  unfold edgeStep code_to_learning
  rw [if_pos h1]
  cases hs : moduleBacked g e.source with
  | false => simp
  | true => simp [h3]

theorem foldl_edgeStep (g : CodeGraph) (es : List GraphEdge) :
    ∀ acc : List GraphEdge,
      es.foldl (edgeStep g) acc
        = acc ++ (es.filter (fun e => decide (e.type = EdgeType.IMPORTS)
            && moduleBacked g e.source && moduleBacked g e.target)).map
            (fun e => { source := "concept_" ++ e.target,
                        target := "concept_" ++ e.source, type := .DEPENDS_ON }) := by
  induction es with
  | nil => intro acc; simp
  | cons e es ih =>
    intro acc
    rw [List.foldl_cons, List.filter_cons]
    by_cases h1 : e.type = EdgeType.IMPORTS
    · cases h2 : moduleBacked g e.source with
      | true =>
        cases h3 : moduleBacked g e.target with
        | true =>
          rw [edgeStep_append g acc e h1 h2 h3, ih]
          simp [h1, h2, h3]
        | false =>
          rw [edgeStep_skip_tgt g acc e h1 h3, ih]
          simp [h1, h2, h3]
      | false =>
        rw [edgeStep_skip_src g acc e h1 h2, ih]
        simp [h1, h2]
    · rw [edgeStep_skip_type g acc e h1, ih]
      simp [h1]

end LearningGraphService

/-- C7 counterexample: a module `A` that imports itself produces the
`DependsOn` self-loop `concept_A → concept_A` — the claim that a
self-import yields no `DependsOn` edge is false. -/
theorem learning_self_import_self_loop :
    (LearningGraphService.construct_learning_path selfImportGraph).edges
      = [{ source := "concept_A", target := "concept_A", type := .DEPENDS_ON }] := by
  decide

/-- C7 (amended): the `DependsOn` edges are exactly one edge
`concept(B) → concept(A)` per `Imports` edge `A → B` whose two endpoints
both have module-typed nodes (so exactly one per such edge, duplicates
giving duplicates); a self-import `A → A` qualifies and yields the
self-loop `concept(A) → concept(A)`, while an import whose source or
target has no module node yields no edge. -/
theorem learning_edges_per_import_edge :
    ∀ g : CodeGraph,
      (LearningGraphService.construct_learning_path g).edges
        = (g.edges.filter (fun e => decide (e.type = EdgeType.IMPORTS)
            && LearningGraphService.moduleBacked g e.source
            && LearningGraphService.moduleBacked g e.target)).map
            (fun e => { source := "concept_" ++ e.target,
                        target := "concept_" ++ e.source, type := .DEPENDS_ON }) := by
  intro g
  unfold LearningGraphService.construct_learning_path
  dsimp only
  rw [LearningGraphService.foldl_edgeStep]
  simp


namespace LearningGraphService

theorem bumpDeps_find_eq (k : String) (m : List (String × Nat)) :
    (bumpDeps m k).find? (fun p => decide (p.1 = k))
      = (m.find? (fun p => decide (p.1 = k))).map (fun p => (p.1, p.2 + 1)) := by
  induction m with
  | nil => rfl
  | cons p m ih =>
    unfold bumpDeps at ih ⊢
    rw [List.map_cons]
    by_cases h : p.1 = k
    · rw [if_pos h, List.find?_cons_of_pos _ (by simp [h]),
        List.find?_cons_of_pos _ (by simp [h])]
      rfl
    · rw [if_neg h, List.find?_cons_of_neg _ (by simp [h]),
        List.find?_cons_of_neg _ (by simp [h]), ih]

theorem bumpDeps_find_ne (k id : String) (hne : id ≠ k) (m : List (String × Nat)) :
    (bumpDeps m k).find? (fun p => decide (p.1 = id))
      = m.find? (fun p => decide (p.1 = id)) := by
  induction m with
  | nil => rfl
  | cons p m ih =>
    unfold bumpDeps at ih ⊢
    rw [List.map_cons]
    by_cases h : p.1 = id
    · rw [if_neg (fun hc => hne (h ▸ hc)), List.find?_cons_of_pos _ (by simp [h]),
        List.find?_cons_of_pos _ (by simp [h])]
    · by_cases hk : p.1 = k
      · rw [if_pos hk, List.find?_cons_of_neg _ (by simp [h]),
          List.find?_cons_of_neg _ (by simp [h]), ih]
      · rw [if_neg hk, List.find?_cons_of_neg _ (by simp [h]),
          List.find?_cons_of_neg _ (by simp [h]), ih]

theorem depStep_find (m : List (String × Nat)) (e : GraphEdge) (id : String) (c : Nat)
    (hfind : m.find? (fun p => decide (p.1 = id)) = some (id, c)) :
    (depStep m e).find? (fun p => decide (p.1 = id))
      = some (id, c + (if e.type = EdgeType.IMPORTS ∧ e.source = id then 1 else 0)) := by
  by_cases h1 : e.type = EdgeType.IMPORTS
  · by_cases h2 : e.source = id
    · have hany : m.any (fun p => decide (p.1 = e.source)) = true := by
        refine List.any_eq_true.2 ⟨(id, c), List.mem_of_find?_eq_some hfind, ?_⟩
        simp [h2]
      unfold depStep
      rw [if_pos ⟨h1, hany⟩, h2, bumpDeps_find_eq, hfind, if_pos ⟨h1, rfl⟩]
      rfl
    · by_cases hany : m.any (fun p => decide (p.1 = e.source)) = true
      · unfold depStep
        rw [if_pos ⟨h1, hany⟩, bumpDeps_find_ne e.source id (fun hc => h2 hc.symm),
          hfind, if_neg (fun hc => h2 hc.2)]
        rfl
      · unfold depStep
        rw [if_neg (fun hc => hany hc.2), hfind, if_neg (fun hc => h2 hc.2)]
        rfl
  · unfold depStep
    rw [if_neg (fun hc => h1 hc.1), hfind, if_neg (fun hc => h1 hc.1)]
    rfl

theorem foldl_depStep_find (es : List GraphEdge) :
    ∀ (m : List (String × Nat)) (id : String) (c : Nat),
      m.find? (fun p => decide (p.1 = id)) = some (id, c) →
      (es.foldl depStep m).find? (fun p => decide (p.1 = id))
        = some (id, c + (es.filter (fun e => decide (e.type = EdgeType.IMPORTS)
            && decide (e.source = id))).length) := by
  induction es with
  | nil =>
    intro m id c h
    simpa using h
  | cons e es ih =>
    intro m id c h
    rw [List.foldl_cons, List.filter_cons]
    have hstep := depStep_find m e id c h
    by_cases hq : (decide (e.type = EdgeType.IMPORTS) && decide (e.source = id)) = true
    · have hcond : e.type = EdgeType.IMPORTS ∧ e.source = id := by
        simpa using hq
      rw [if_pos hcond] at hstep
      rw [if_pos hq, List.length_cons, ih (depStep m e) id (c + 1) hstep,
        Nat.add_assoc, Nat.add_comm 1]
    · have hcond : ¬(e.type = EdgeType.IMPORTS ∧ e.source = id) := by
        intro hc
        exact hq (by simp [hc.1, hc.2])
      rw [if_neg hcond, Nat.add_zero] at hstep
      rw [if_neg hq]
      exact ih (depStep m e) id c hstep

theorem initStep_sub (m : List (String × Nat)) (n : CodeNode) : m ⊆ initStep m n := by
  unfold initStep
  split
  · exact fun x h => h
  · exact List.subset_append_left _ _

theorem foldl_initStep_sub (nodes : List CodeNode) :
    ∀ m : List (String × Nat), m ⊆ nodes.foldl initStep m := by
  induction nodes with
  | nil => exact fun m x h => h
  | cons n nodes ih =>
    intro m x hx
    exact ih (initStep m n) (initStep_sub m n hx)

theorem foldl_initStep_zero (nodes : List CodeNode) :
    ∀ m : List (String × Nat), (∀ p ∈ m, p.2 = 0) →
      ∀ p ∈ nodes.foldl initStep m, p.2 = 0 := by
  induction nodes with
  | nil => exact fun m h => h
  | cons n nodes ih =>
    intro m hm
    refine ih (initStep m n) ?_
    intro p hp
    unfold initStep at hp
    split at hp
    · exact hm p hp
    · rcases List.mem_append.1 hp with h | h
      · exact hm p h
      · rw [List.mem_singleton.1 h]

theorem foldl_initStep_key (nodes : List CodeNode) :
    ∀ (m : List (String × Nat)) (id : String),
      (∃ n ∈ nodes, n.id = id) → ∃ p ∈ nodes.foldl initStep m, p.1 = id := by
  induction nodes with
  | nil =>
    intro m id h
    obtain ⟨n, hn, _⟩ := h
    exact absurd hn (List.not_mem_nil n)
  | cons n nodes ih =>
    intro m id h
    obtain ⟨n', hn', hid⟩ := h
    rcases List.mem_cons.1 hn' with rfl | htail
    · rw [List.foldl_cons]
      by_cases hany : m.any (fun p => decide (p.1 = n'.id)) = true
      · obtain ⟨p, hp, hpk⟩ := List.any_eq_true.1 hany
        refine ⟨p, foldl_initStep_sub nodes (initStep m n') (initStep_sub m n' hp), ?_⟩
        rw [of_decide_eq_true hpk, hid]
      · refine ⟨(n'.id, 0), foldl_initStep_sub nodes (initStep m n') ?_, hid⟩
        unfold initStep
        rw [if_neg hany]
        exact List.mem_append.2 (Or.inr (List.mem_singleton_self _))
    · exact ih (initStep m n) id ⟨n', htail, hid⟩

theorem find?_key_zero (id : String) (m : List (String × Nat))
    (hkey : ∃ p ∈ m, p.1 = id) (hzero : ∀ p ∈ m, p.2 = 0) :
    m.find? (fun p => decide (p.1 = id)) = some (id, 0) := by
  induction m with
  | nil =>
    obtain ⟨p, hp, _⟩ := hkey
    exact absurd hp (List.not_mem_nil p)
  | cons p m ih =>
    by_cases h : p.1 = id
    · rw [List.find?_cons_of_pos _ (by simp [h])]
      have h2 : p.2 = 0 := hzero p (List.mem_cons_self p m)
      have hpk : p = (id, 0) := by
        cases p
        simp only [Prod.mk.injEq]
        exact ⟨h, h2⟩
      rw [hpk]
    · rw [List.find?_cons_of_neg _ (by simp [h])]
      refine ih ?_ (fun q hq => hzero q (List.mem_cons_of_mem p hq))
      obtain ⟨q, hq, hqk⟩ := hkey
      rcases List.mem_cons.1 hq with rfl | htail
      · exact absurd hqk h
      · exact ⟨q, htail, hqk⟩

theorem initDeps_find (nodes : List CodeNode) (id : String)
    (h : ∃ n ∈ nodes, n.id = id) :
    (initDeps nodes).find? (fun p => decide (p.1 = id)) = some (id, 0) :=
  find?_key_zero id (initDeps nodes) (foldl_initStep_key nodes [] id h)
    (foldl_initStep_zero nodes [] (fun p hp => absurd hp (List.not_mem_nil p)))

/-- The `dependencies` dictionary value for a node id equals the raw count
of `IMPORTS` edges leaving that id. -/
theorem getDeps_eq_rawFanOut (g : CodeGraph) (n : CodeNode) (hn : n ∈ g.nodes) :
    getDeps (buildDeps g) n.id 0 = rawFanOut g n.id := by
  have hinit : (initDeps g.nodes).find? (fun p => decide (p.1 = n.id))
      = some (n.id, 0) := initDeps_find g.nodes n.id ⟨n, hn, rfl⟩
  have hfold := foldl_depStep_find g.edges (initDeps g.nodes) n.id 0 hinit
  unfold getDeps buildDeps rawFanOut
  rw [hfold]
  exact Nat.zero_add _

theorem foldl_nodeStep (g : CodeGraph) (ns : List CodeNode) :
    ∀ acc : List LearningNode,
      ns.foldl (nodeStep g) acc
        = acc ++ (ns.filter (fun n => decide (n.type = NodeType.MODULE))).map
            (mkLearningNode g) := by
  induction ns with
  | nil => intro acc; simp
  | cons n ns ih =>
    intro acc
    rw [List.foldl_cons, List.filter_cons]
    by_cases h : n.type = NodeType.MODULE
    · have hstep : nodeStep g acc n = acc ++ [mkLearningNode g n] := by
        unfold nodeStep
        rw [if_pos h]
      rw [if_pos (by simp [h]), hstep, ih]
      simp
    · have hstep : nodeStep g acc n = acc := by
        unfold nodeStep
        rw [if_neg h]
      rw [if_neg (by simp [h]), hstep, ih]

end LearningGraphService

/-- C8 counterexample: module `A` (no line-count metadata, so difficulty 1)
with two duplicate import edges `A → X`: the code counts both edges, giving
`cognitive_load = clamp(1, 10, 1 + 2 / 2) = 2`, while the claimed
distinct-target fan-out gives `clamp(1, 10, 1 + 1 / 2) = 1` — duplicated
imported-name statements do inflate `cognitive_load`. -/
theorem learning_fanout_counts_duplicates :
    ((LearningGraphService.construct_learning_path dupImportGraph).nodes.map
        (fun l => l.cognitive_load)) = [2]
    ∧ min 10 (max 1
        (1 + LearningGraphService.specDistinctFanOut dupImportGraph "A" / 2)) = 1
    ∧ (2 : Nat) ≠ 1 := by
  refine ⟨?_, by decide, by decide⟩
  decide

/-- C8 (amended): every concept node comes from a module-typed code node
with `difficulty = clamp(1, 10, floor(loc / 50))` (`loc` defaulting to 0 when
line-count metadata is absent, making the fixed default difficulty 1) and
`cognitive_load = clamp(1, 10, difficulty + floor(fan_out / 2))`, where
`fan_out` is the RAW count of `Imports` edges whose source is the module id
— duplicate import statements of the same target are counted each time. -/
theorem learning_difficulty_cognitive_load :
    ∀ (g : CodeGraph) (l : LearningNode),
      l ∈ (LearningGraphService.construct_learning_path g).nodes →
      ∃ n ∈ g.nodes, n.type = NodeType.MODULE
        ∧ l.id = "concept_" ++ n.id
        ∧ l.difficulty = min 10 (max 1 (n.metadata.loc.getD 0 / 50))
        ∧ l.cognitive_load
            = min 10 (max 1 (l.difficulty
                + LearningGraphService.rawFanOut g n.id / 2)) := by
  intro g l hl
  unfold LearningGraphService.construct_learning_path at hl
  dsimp only at hl
  rw [LearningGraphService.foldl_nodeStep] at hl
  have hl' : ∃ n, (n ∈ g.nodes ∧ n.type = NodeType.MODULE)
      ∧ LearningGraphService.mkLearningNode g n = l := by simpa using hl
  obtain ⟨n, ⟨hnmem, htype⟩, hmk⟩ := hl'
  subst hmk
  refine ⟨n, hnmem, htype, rfl, rfl, ?_⟩
  unfold LearningGraphService.mkLearningNode
  dsimp only
  rw [LearningGraphService.getDeps_eq_rawFanOut g n hnmem]

/-- Witness for C8: the difficulty/cognitive-load characterisation applied
to the one-module graph and its concept node. -/
theorem learning_difficulty_cognitive_load_witness :
    ∃ n ∈ singleGraph.nodes, n.type = NodeType.MODULE
      ∧ ({ id := "concept_A", concept_name := "Understanding A", difficulty := 1,
           cognitive_load := 1,
           description := "Learn about the module A. LOC: 0, Deps: 0 (Beginner Safe)",
           related_code_nodes := ["A"] } : LearningNode).id = "concept_" ++ n.id
      ∧ ({ id := "concept_A", concept_name := "Understanding A", difficulty := 1,
           cognitive_load := 1,
           description := "Learn about the module A. LOC: 0, Deps: 0 (Beginner Safe)",
           related_code_nodes := ["A"] } : LearningNode).difficulty
          = min 10 (max 1 (n.metadata.loc.getD 0 / 50))
      ∧ ({ id := "concept_A", concept_name := "Understanding A", difficulty := 1,
           cognitive_load := 1,
           description := "Learn about the module A. LOC: 0, Deps: 0 (Beginner Safe)",
           related_code_nodes := ["A"] } : LearningNode).cognitive_load
          = min 10 (max 1
              (({ id := "concept_A", concept_name := "Understanding A",
                  difficulty := 1, cognitive_load := 1,
                  description :=
                    "Learn about the module A. LOC: 0, Deps: 0 (Beginner Safe)",
                  related_code_nodes := ["A"] } : LearningNode).difficulty
                + LearningGraphService.rawFanOut singleGraph n.id / 2)) :=
  learning_difficulty_cognitive_load singleGraph
    { id := "concept_A", concept_name := "Understanding A", difficulty := 1,
      cognitive_load := 1,
      description := "Learn about the module A. LOC: 0, Deps: 0 (Beginner Safe)",
      related_code_nodes := ["A"] }
    (by decide)
